import Mathlib

/-!
Verification development for the `patternhubspot` scripts.

The embedding covers:
  * `tools/genindex.py` — the recursive directory-tree snapshot
    (`folder_structure`) and its `__main__` block that serializes the tree
    with `json.dump(..., indent=2, ensure_ascii=False)`;
  * `bulk/process.py` — `split_file`, which splits an input file into
    `index{N}.md` chunks at lines starting with `"# "`;
  * `bulk/process-index.py` — `process_files`, which truncates each
    `index{N}.md` at the first line starting with `"You: "`.
-/

/- ## Model of `tools/genindex.py` -/

/-- Error classes that `os.listdir` can raise in the model: listing a
non-directory (`NotADirectoryError`) or an OS error other than
`PermissionError`, carried with its message so we can observe that it is
surfaced unchanged. `PermissionError` is not an error value here because the
code catches it; it is a constructor of `FS` instead. -/
inductive FsError where
  | notADirectory : FsError
  | osError : String → FsError
deriving DecidableEq

/-- Model of one filesystem entry, as observed by `genindex.py` through
`os.listdir` / `os.path.isdir`.  A `file` is any entry for which
`os.path.isdir` is false (plain files, symlinks to files, broken links).
A directory either lists successfully (`dirOk`, with its entries in the
order `os.listdir` returns them), raises `PermissionError` on listing
(`dirPermErr`), or raises some other `OSError` with a message
(`dirIOErr`). -/
inductive FS where
  | file : String → FS
  | dirOk : String → List FS → FS
  | dirPermErr : String → FS
  | dirIOErr : String → String → FS

/-- Embedding of the `os.path.isdir(full_path)` test on a model entry. -/
def isdir : FS → Bool
  | .file _ => false
  | .dirOk _ _ => true
  | .dirPermErr _ => true
  | .dirIOErr _ _ => true

/-- Basename (final path segment) of a model entry, i.e. what
`os.path.basename(path)` yields for the entry's path. -/
def FS.name : FS → String
  | .file n => n
  | .dirOk n _ => n
  | .dirPermErr n => n
  | .dirIOErr n _ => n

/-- The tree record built by `folder_structure`:
`{"name": ..., "children": [...]}`.  The `children` field is a list by
construction, never null or absent. -/
structure DirNode where
  name : String
  children : List DirNode

mutual

/-- Embedding of `folder_structure(path)` from `tools/genindex.py`:
build the node with `name` = basename, then append one recursively built
node per entry for which `isdir` holds; `PermissionError` from `os.listdir`
is caught (leaving `children` empty), every other error propagates. -/
def folder_structure : FS → Except FsError DirNode
  | .file _ => .error .notADirectory
  | .dirPermErr n => .ok ⟨n, []⟩
  | .dirIOErr _ msg => .error (.osError msg)
  | .dirOk n entries =>
    match buildChildren entries with
    | .error e => .error e
    | .ok cs => .ok ⟨n, cs⟩

/-- The `for entry in os.listdir(path)` loop body of `folder_structure`:
recurse into directory entries in listing order, skip non-directories;
an error from a recursive call aborts the whole loop. -/
def buildChildren : List FS → Except FsError (List DirNode)
  | [] => .ok []
  | e :: rest =>
    if isdir e then
      match folder_structure e with
      | .error err => .error err
      | .ok c =>
        match buildChildren rest with
        | .error err => .error err
        | .ok cs => .ok (c :: cs)
    else buildChildren rest

end

mutual

/-- Counting the nodes of a produced tree record. -/
def countNodes : DirNode → Nat
  | ⟨_, cs⟩ => 1 + countNodesList cs

/-- Counting the nodes of a list of tree records. -/
def countNodesList : List DirNode → Nat
  | [] => 0
  | c :: cs => countNodes c + countNodesList cs

end

mutual

/-- Number of directories of the model tree that the traversal visits:
one per directory (a permission-denied directory is still visited once;
its unreachable contents are not modelled), zero for non-directories. -/
def countDirs : FS → Nat
  | .file _ => 0
  | .dirPermErr _ => 1
  | .dirIOErr _ _ => 1
  | .dirOk _ es => 1 + countDirsList es

/-- Sum of `countDirs` over a listing. -/
def countDirsList : List FS → Nat
  | [] => 0
  | e :: es => countDirs e + countDirsList es

end

/- ### Lemmas about the traversal -/

theorem buildChildren_ok_forall2 : ∀ (entries : List FS) (cs : List DirNode),
    buildChildren entries = .ok cs →
    List.Forall₂ (fun e c => folder_structure e = Except.ok c)
      (entries.filter isdir) cs := by
  intro entries
  induction entries with
  | nil =>
    intro cs h
    simp [buildChildren] at h
    subst h
    simp
  | cons e rest ih =>
    intro cs h
    cases hd : isdir e with
    | false =>
      simp only [buildChildren, hd, Bool.false_eq_true, if_false] at h
      have hf : (e :: rest).filter isdir = rest.filter isdir := by
        simp [List.filter_cons, hd]
      rw [hf]
      exact ih cs h
    | true =>
      simp only [buildChildren, hd, if_true] at h
      cases hfe : folder_structure e with
      | error err => rw [hfe] at h; cases h
      | ok c =>
        rw [hfe] at h
        cases hbc : buildChildren rest with
        | error err => rw [hbc] at h; cases h
        | ok cs2 =>
          rw [hbc] at h
          injection h with h
          subst h
          have hf : (e :: rest).filter isdir = e :: rest.filter isdir := by
            simp [List.filter_cons, hd]
          rw [hf]
          exact List.Forall₂.cons hfe (ih cs2 hbc)

theorem buildChildren_append_ok : ∀ (xs ys : List FS) (cs : List DirNode),
    buildChildren xs = .ok cs →
    buildChildren (xs ++ ys) = (buildChildren ys).map fun ds => cs ++ ds := by
  intro xs
  induction xs with
  | nil =>
    intro ys cs h
    simp [buildChildren] at h
    subst h
    cases hys : buildChildren ys <;> simp [buildChildren, hys, Except.map]
  | cons e rest ih =>
    intro ys cs h
    cases hd : isdir e with
    | false =>
      simp only [buildChildren, hd, Bool.false_eq_true, if_false] at h ⊢
      exact ih ys cs h
    | true =>
      simp only [buildChildren, hd, if_true] at h ⊢
      cases hfe : folder_structure e with
      | error err => rw [hfe] at h; cases h
      | ok c =>
        rw [hfe] at h
        cases hbc : buildChildren rest with
        | error err => rw [hbc] at h; cases h
        | ok cs2 =>
          rw [hbc] at h
          injection h with h
          subst h
          cases hys : buildChildren ys <;>
            simp [hys, Except.map, ih ys cs2 hbc]

theorem buildChildren_no_dirs : ∀ (entries : List FS),
    (∀ e ∈ entries, isdir e = false) → buildChildren entries = .ok [] := by
  intro entries
  induction entries with
  | nil => intro _; simp [buildChildren]
  | cons e rest ih =>
    intro h
    have he : isdir e = false := h e (by simp)
    simp only [buildChildren, he, Bool.false_eq_true, if_false]
    exact ih fun x hx => h x (by simp [hx])

/-- Node/directory counting agrees on every successful traversal; the
recursion is measured by the fuel bound on `sizeOf`. -/
theorem count_aux : ∀ (fuel : Nat),
    (∀ fs : FS, sizeOf fs ≤ fuel → ∀ node, folder_structure fs = .ok node →
      countNodes node = countDirs fs) ∧
    (∀ es : List FS, sizeOf es ≤ fuel → ∀ cs, buildChildren es = .ok cs →
      countNodesList cs = countDirsList es) := by
  intro fuel
  induction fuel with
  | zero =>
    constructor
    · intro fs hle
      exfalso
      cases fs <;> simp_arith at hle
    · intro es hle
      exfalso
      cases es <;> simp_arith at hle
  | succ fuel ih =>
    constructor
    · intro fs hle node h
      cases fs with
      | file s => simp [folder_structure] at h
      | dirPermErr s =>
        simp only [folder_structure] at h
        injection h with h
        subst h
        simp [countNodes, countNodesList, countDirs]
      | dirIOErr s m => simp [folder_structure] at h
      | dirOk s es =>
        simp only [folder_structure] at h
        cases hbc : buildChildren es with
        | error err => rw [hbc] at h; cases h
        | ok cs =>
          rw [hbc] at h
          injection h with h
          subst h
          have hsz : sizeOf es ≤ fuel := by
            simp_arith at hle
            omega
          simp only [countNodes, countDirs]
          rw [ih.2 es hsz cs hbc]
    · intro es hle cs h
      cases es with
      | nil =>
        simp [buildChildren] at h
        subst h
        simp [countNodesList, countDirsList]
      | cons e rest =>
        have hsze : sizeOf e ≤ fuel := by simp_arith at hle; omega
        have hszr : sizeOf rest ≤ fuel := by simp_arith at hle; omega
        cases hd : isdir e with
        | false =>
          simp only [buildChildren, hd, Bool.false_eq_true, if_false] at h
          have hcd : countDirs e = 0 := by
            cases e with
            | file s => simp [countDirs]
            | dirOk s es => simp [isdir] at hd
            | dirPermErr s => simp [isdir] at hd
            | dirIOErr s m => simp [isdir] at hd
          simp only [countDirsList, hcd, Nat.zero_add]
          exact ih.2 rest hszr cs h
        | true =>
          simp only [buildChildren, hd, if_true] at h
          cases hfe : folder_structure e with
          | error err => rw [hfe] at h; cases h
          | ok c =>
            rw [hfe] at h
            cases hbc : buildChildren rest with
            | error err => rw [hbc] at h; cases h
            | ok cs2 =>
              rw [hbc] at h
              injection h with h
              subst h
              simp only [countNodesList, countDirsList]
              rw [ih.1 e hsze c hfe, ih.2 rest hszr cs2 hbc]

/- ### Claim theorems for the traversal -/

/-- C1: on a directory whose listing succeeds, `folder_structure` returns a
node whose name is the basename of the path and whose children are, in the
order of the listing, exactly one recursively built node per entry that is
a directory; entries that are not directories never appear. -/
theorem spec_C1 (n : String) (entries : List FS) (node : DirNode)
    (h : folder_structure (FS.dirOk n entries) = .ok node) :
    node.name = n ∧
    List.Forall₂ (fun e c => folder_structure e = Except.ok c)
      (entries.filter isdir) node.children := by
  simp only [folder_structure] at h
  cases hbc : buildChildren entries with
  | error err => rw [hbc] at h; cases h
  | ok cs =>
    rw [hbc] at h
    injection h with h
    subst h
    exact ⟨rfl, buildChildren_ok_forall2 entries cs hbc⟩

/-- Witness for C1 at a concrete tree with one file and one subdirectory. -/
theorem spec_C1_witness :
    (DirNode.mk "root" [⟨"sub", []⟩]).name = "root" ∧
    List.Forall₂ (fun e c => folder_structure e = Except.ok c)
      (([FS.file "a.txt", FS.dirOk "sub" []]).filter isdir)
      (DirNode.mk "root" [⟨"sub", []⟩]).children :=
  spec_C1 "root" [FS.file "a.txt", FS.dirOk "sub" []] ⟨"root", [⟨"sub", []⟩]⟩
    (by simp [folder_structure, buildChildren, isdir])

/-- C2: a directory raising `PermissionError` on listing yields a node with
zero children, and sibling directories before and after it are still
traversed: their nodes surround it in the parent's children. -/
theorem spec_C2 (p nm : String) (pre post : List FS) (cs ds : List DirNode)
    (hpre : buildChildren pre = .ok cs) (hpost : buildChildren post = .ok ds) :
    folder_structure (FS.dirPermErr nm) = .ok ⟨nm, []⟩ ∧
    folder_structure (FS.dirOk p (pre ++ FS.dirPermErr nm :: post)) =
      .ok ⟨p, cs ++ DirNode.mk nm [] :: ds⟩ := by
  refine ⟨by simp [folder_structure], ?_⟩
  have h1 : buildChildren (FS.dirPermErr nm :: post) =
      .ok (DirNode.mk nm [] :: ds) := by
    simp [buildChildren, isdir, folder_structure, hpost]
  have h2 := buildChildren_append_ok pre (FS.dirPermErr nm :: post) cs hpre
  rw [h1] at h2
  simp [folder_structure, h2, Except.map]

/-- Witness for C2: a locked directory between two readable siblings. -/
theorem spec_C2_witness :
    folder_structure (FS.dirPermErr "locked") = .ok ⟨"locked", []⟩ ∧
    folder_structure (FS.dirOk "root"
        ([FS.dirOk "a" []] ++ FS.dirPermErr "locked" :: [FS.dirOk "b" []])) =
      .ok ⟨"root", [⟨"a", []⟩] ++ DirNode.mk "locked" [] :: [⟨"b", []⟩]⟩ :=
  spec_C2 "root" "locked" [FS.dirOk "a" []] [FS.dirOk "b" []]
    [⟨"a", []⟩] [⟨"b", []⟩]
    (by simp [buildChildren, isdir, folder_structure])
    (by simp [buildChildren, isdir, folder_structure])

/-- C3: an `OSError` that is not a `PermissionError` is not caught: it
propagates out of `folder_structure` with its message unchanged, aborting
the traversal even when earlier siblings were processed successfully. -/
theorem spec_C3 (p nm msg : String) (pre post : List FS) (cs : List DirNode)
    (hpre : buildChildren pre = .ok cs) :
    folder_structure (FS.dirIOErr nm msg) = .error (.osError msg) ∧
    folder_structure (FS.dirOk p (pre ++ FS.dirIOErr nm msg :: post)) =
      .error (.osError msg) := by
  refine ⟨by simp [folder_structure], ?_⟩
  have h1 : buildChildren (FS.dirIOErr nm msg :: post) =
      .error (.osError msg) := by
    simp [buildChildren, isdir, folder_structure]
  have h2 := buildChildren_append_ok pre (FS.dirIOErr nm msg :: post) cs hpre
  rw [h1] at h2
  simp [folder_structure, h2, Except.map]

/-- Witness for C3: an I/O error in the second of three entries. -/
theorem spec_C3_witness :
    folder_structure (FS.dirIOErr "bad" "io error") = .error (.osError "io error") ∧
    folder_structure (FS.dirOk "root"
        ([FS.dirOk "a" []] ++ FS.dirIOErr "bad" "io error" :: [FS.dirOk "b" []])) =
      .error (.osError "io error") :=
  spec_C3 "root" "bad" "io error" [FS.dirOk "a" []] [FS.dirOk "b" []] [⟨"a", []⟩]
    (by simp [buildChildren, isdir, folder_structure])

/-- C7: the `children` field of a produced node is a list by construction
(never null or absent), and a directory containing only non-directory
entries produces a node with an empty `children` list, regardless of how
many files it holds. -/
theorem spec_C7 (n : String) (entries : List FS)
    (h : ∀ e ∈ entries, isdir e = false) :
    folder_structure (FS.dirOk n entries) = .ok ⟨n, []⟩ := by
  simp [folder_structure, buildChildren_no_dirs entries h]

/-- Witness for C7: a directory with three files and no subdirectory. -/
theorem spec_C7_witness :
    folder_structure
      (FS.dirOk "docs" [FS.file "a.md", FS.file "b.md", FS.file "c.md"]) =
      .ok ⟨"docs", []⟩ :=
  spec_C7 "docs" [FS.file "a.md", FS.file "b.md", FS.file "c.md"]
    (by intro e he; simp at he; rcases he with rfl | rfl | rfl <;> rfl)

/-- C8: the traversal is total — on every model tree it either returns a
tree record or aborts with an error — and on success it visits each
directory exactly once: the output has exactly one node per directory. -/
theorem spec_C8 :
    (∀ fs : FS, (∃ node, folder_structure fs = .ok node) ∨
      (∃ e, folder_structure fs = .error e)) ∧
    (∀ (fs : FS) (node : DirNode), folder_structure fs = .ok node →
      countNodes node = countDirs fs) := by
  constructor
  · intro fs
    cases h : folder_structure fs with
    | error e => exact Or.inr ⟨e, rfl⟩
    | ok node => exact Or.inl ⟨node, rfl⟩
  · intro fs node h
    exact (count_aux (sizeOf fs)).1 fs (Nat.le_refl _) node h

/-- Witness for C8 at a two-directory tree containing a file. -/
theorem spec_C8_witness :
    countNodes ⟨"r", [⟨"s", []⟩]⟩ =
      countDirs (FS.dirOk "r" [FS.file "a", FS.dirOk "s" []]) :=
  spec_C8.2 (FS.dirOk "r" [FS.file "a", FS.dirOk "s" []]) ⟨"r", [⟨"s", []⟩]⟩
    (by simp [folder_structure, buildChildren, isdir])

/- ## Serialization: `json.dump(structure, f, indent=2, ensure_ascii=False)` -/

/-- Escaping of one character by Python's `json` encoder when
`ensure_ascii=False`: backslash, double quote, the named control escapes
and the remaining control characters (as `\u00XX`) are escaped; every
other character — in particular every non-ASCII character — is written as
itself. -/
def escapeChar (c : Char) : String :=
  if c = '\\' then "\\\\"
  else if c = '\"' then "\\\""
  else if c = '\n' then "\\n"
  else if c = '\r' then "\\r"
  else if c = '\t' then "\\t"
  else if c.toNat = 8 then "\\b"
  else if c.toNat = 12 then "\\f"
  else if c.toNat < 32 then
    "\\u00" ++ String.singleton (Nat.digitChar (c.toNat / 16)) ++
      String.singleton (Nat.digitChar (c.toNat % 16))
  else String.singleton c

/-- The JSON encoder's escaping applied to a whole string. -/
def jsonEscape (s : String) : String :=
  (s.data.map escapeChar).foldr (· ++ ·) ""

/-- The set of characters `escapeChar` does not copy verbatim. -/
def needsEscape (c : Char) : Bool :=
  c == '\"' || c == '\\' || c.toNat < 32

/-- Indentation of `n` spaces. -/
def spaces (n : Nat) : String := String.mk (List.replicate n ' ')

mutual

/-- Rendering of one node by `json.dump` with `indent=2` and
`ensure_ascii=False`: a dict whose fields appear in insertion order
(`name`, then `children`), the fields indented `2*(d+1)` spaces and the
closing brace `2*d` spaces when the node sits at nesting depth `d`. -/
def serializeNode : DirNode → Nat → String
  | ⟨n, cs⟩, d =>
    "\x7b\n" ++ spaces (2 * (d + 1)) ++ "\"name\": \"" ++ jsonEscape n ++
      "\",\n" ++ spaces (2 * (d + 1)) ++ "\"children\": " ++
      serializeList cs (d + 1) ++ "\n" ++ spaces (2 * d) ++ "\x7d"
termination_by node _ => (sizeOf node, 0)

/-- Rendering of a `children` array: `[]` when empty, otherwise one item
per line, indented two spaces beyond the array's own depth `d`. -/
def serializeList : List DirNode → Nat → String
  | [], _ => "[]"
  | c :: cs, d =>
    "[\n" ++ spaces (2 * (d + 1)) ++ serializeItems c cs (d + 1) ++
      "\n" ++ spaces (2 * d) ++ "]"
termination_by cs _ => (sizeOf cs, 1)

/-- Comma-separated items of a non-empty array, each at depth `d`. -/
def serializeItems : DirNode → List DirNode → Nat → String
  | c, [], d => serializeNode c d
  | c, c2 :: cs, d =>
    serializeNode c d ++ ",\n" ++ spaces (2 * d) ++ serializeItems c2 cs d
termination_by c cs _ => (1 + sizeOf c + sizeOf cs, 0)

end

/-- Embedding of the `__main__` block of `genindex.py`: run the traversal
to completion, then serialize the resulting tree at depth 0.  An error
from the traversal propagates before any output exists. -/
def main_run (fs : FS) : Except FsError String :=
  match folder_structure fs with
  | .error e => .error e
  | .ok node => .ok (serializeNode node 0)

/-- Contents of the output location `structure.json` after a run, as a
function of its previous contents: `open(..., "w")` and `json.dump` run
only after `folder_structure` has returned, so a failed run never touches
the file. -/
def outputAfter (fs : FS) (prev : Option String) : Option String :=
  match main_run fs with
  | .error _ => prev
  | .ok s => some s

/-- C4: an aborted run writes nothing — the output location keeps its
previous contents — and any output that is written is the serialization of
a completely constructed tree. -/
theorem spec_C4 (fs : FS) (prev : Option String) :
    (∀ e, folder_structure fs = .error e → outputAfter fs prev = prev) ∧
    (∀ s, main_run fs = .ok s →
      ∃ node, folder_structure fs = .ok node ∧ s = serializeNode node 0) := by
  constructor
  · intro e he
    simp [outputAfter, main_run, he]
  · intro s hs
    simp only [main_run] at hs
    cases hfs : folder_structure fs with
    | error err => rw [hfs] at hs; cases hs
    | ok node =>
      rw [hfs] at hs
      injection hs with hs
      exact ⟨node, rfl, hs.symm⟩

/-- Witness for C4: a failing root leaves existing output untouched. -/
theorem spec_C4_witness :
    outputAfter (FS.dirIOErr "bad" "boom") (some "old") = some "old" :=
  (spec_C4 (FS.dirIOErr "bad" "boom") (some "old")).1 (.osError "boom")
    (by simp [folder_structure])

/-- C5: serialization writes `name` before `children`, indents two spaces
per nesting level, and escapes only quotes, backslashes and control
characters — every other character, in particular every non-ASCII
character, is written exactly as itself. -/
theorem spec_C5 :
    (∀ c : Char, needsEscape c = false → escapeChar c = String.singleton c) ∧
    (∀ s : String, (∀ c ∈ s.data, needsEscape c = false) → jsonEscape s = s) ∧
    (∀ c : Char, 128 ≤ c.toNat → needsEscape c = false) ∧
    (∀ (node : DirNode) (d : Nat), ∃ rest : String,
      serializeNode node d =
        "\x7b\n" ++ spaces (2 * (d + 1)) ++ "\"name\": \"" ++
          jsonEscape node.name ++ "\",\n" ++ spaces (2 * (d + 1)) ++
          "\"children\": " ++ rest) := by
  have hchar : ∀ c : Char, needsEscape c = false →
      escapeChar c = String.singleton c := by
    intro c h
    simp only [needsEscape, Bool.or_eq_false_iff, beq_eq_false_iff_ne,
      decide_eq_false_iff_not] at h
    obtain ⟨⟨hq, hb⟩, hc⟩ := h
    have hn : ¬ c = '\n' := fun hx => hc (by subst hx; decide)
    have hr : ¬ c = '\r' := fun hx => hc (by subst hx; decide)
    have ht : ¬ c = '\t' := fun hx => hc (by subst hx; decide)
    have h8 : ¬ c.toNat = 8 := fun hx => hc (by omega)
    have h12 : ¬ c.toNat = 12 := fun hx => hc (by omega)
    simp [escapeChar, hq, hb, hn, hr, ht, h8, h12, hc]
  refine ⟨hchar, ?_, ?_, ?_⟩
  · intro s hs
    suffices h : ∀ l : List Char, (∀ c ∈ l, needsEscape c = false) →
        (l.map escapeChar).foldr (· ++ ·) "" = String.mk l by
      exact h s.data hs
    intro l
    induction l with
    | nil => intro _; rfl
    | cons c l ih =>
      intro hl
      have hc := hl c (by simp)
      have hrest := ih fun x hx => hl x (by simp [hx])
      simp only [List.map_cons, List.foldr_cons, hrest, hchar c hc]
      apply String.ext
      simp [String.singleton]
  · intro c h
    have hq : (c == '\"') = false := by
      simp only [beq_eq_false_iff_ne]
      intro hx; subst hx; exact absurd h (by decide)
    have hb : (c == '\\') = false := by
      simp only [beq_eq_false_iff_ne]
      intro hx; subst hx; exact absurd h (by decide)
    simp only [needsEscape, hq, hb, Bool.false_or, decide_eq_false_iff_not]
    omega
  · intro node d
    obtain ⟨n, cs⟩ := node
    refine ⟨serializeList cs (d + 1) ++ "\n" ++ spaces (2 * d) ++ "\x7d", ?_⟩
    simp only [serializeNode]
    simp only [String.append_assoc]

/-- Witness for C5: a non-ASCII name passes through escaping unchanged. -/
theorem spec_C5_witness : jsonEscape "héllo" = "héllo" :=
  spec_C5.2.1 "héllo" (by decide)

/-- C6: running the snapshot twice on the same tree — hence with the same
listing order — produces byte-identical serialized output. -/
theorem spec_C6 (fs : FS) (s1 s2 : String)
    (h1 : main_run fs = .ok s1) (h2 : main_run fs = .ok s2) : s1 = s2 := by
  rw [h1] at h2
  injection h2

/-- Witness for C6: two runs on a one-directory tree agree. -/
theorem spec_C6_witness : serializeNode ⟨"r", []⟩ 0 = serializeNode ⟨"r", []⟩ 0 :=
  spec_C6 (FS.dirOk "r" []) _ _
    (by simp [main_run, folder_structure, buildChildren])
    (by simp [main_run, folder_structure, buildChildren])

/- ## Model of `bulk/process.py` (`split_file`) -/

/-- A line opens a new chunk exactly when it starts with `"# "`. -/
def isMarker (l : String) : Bool := l.startsWith "# "

/-- Name of the `n`-th chunk file, `f"index{n}.md"`. -/
def chunkName (n : Nat) : String := "index" ++ Nat.repr n ++ ".md"

/-- State of the `split_file` loop: the next chunk number (`file_index`),
the currently open output file (its name and the lines written to it so
far), and the files already closed, in closing order. -/
structure SplitState where
  fileIndex : Nat
  current : Option (String × List String)
  closed : List (String × List String)

/-- One iteration of the `for line in infile` loop of `split_file`: a
marker line closes the open file (if any) and opens `index{file_index}.md`;
then the line is written to the open file if one exists, so lines seen
before the first marker go nowhere. -/
def splitStep (st : SplitState) (line : String) : SplitState :=
  if isMarker line then
    { fileIndex := st.fileIndex + 1
      current := some (chunkName st.fileIndex, [line])
      closed :=
        match st.current with
        | some f => st.closed ++ [f]
        | none => st.closed }
  else
    match st.current with
    | some f => { st with current := some (f.1, f.2 ++ [line]) }
    | none => st

/-- Closing the file still open when the loop ends. -/
def closeOut (st : SplitState) : List (String × List String) :=
  match st.current with
  | some f => st.closed ++ [f]
  | none => st.closed

/-- Embedding of `split_file`: fold the loop over the input lines starting
with `file_index = 1` and no open file, then close the last file. The
result lists the written files as (name, lines written). -/
def split_file (lines : List String) : List (String × List String) :=
  closeOut (lines.foldl splitStep ⟨1, none, []⟩)

/-- Direct recursive description of the chunking, used to reason about the
fold: before the first marker lines are dropped; at a marker, one chunk is
emitted holding the marker line and the following non-marker lines. -/
def splitChunks (i : Nat) : List String → List (String × List String)
  | [] => []
  | l :: ls =>
    if isMarker l then
      (chunkName i, l :: ls.takeWhile (fun x => !(isMarker x))) ::
        splitChunks (i + 1) (ls.dropWhile (fun x => !(isMarker x)))
    else
      splitChunks i ls
termination_by ls => ls.length
decreasing_by
  · have := (List.dropWhile_sublist (l := ls) (fun x => !(isMarker x))).length_le
    simp only [List.length_cons]
    omega
  · simp [Nat.lt_succ_self]

theorem closeOut_foldl_open :
    ∀ (lines : List String) (i : Nat) (nm : String) (acc : List String)
      (cl : List (String × List String)),
    closeOut (lines.foldl splitStep ⟨i, some (nm, acc), cl⟩) =
      cl ++ (nm, acc ++ lines.takeWhile (fun x => !(isMarker x))) ::
        splitChunks i (lines.dropWhile (fun x => !(isMarker x))) := by
  intro lines
  induction lines with
  | nil => intro i nm acc cl; simp [closeOut, splitChunks]
  | cons l ls ih =>
    intro i nm acc cl
    cases hl : isMarker l with
    | true =>
      have hstep : splitStep ⟨i, some (nm, acc), cl⟩ l =
          ⟨i + 1, some (chunkName i, [l]), cl ++ [(nm, acc)]⟩ := by
        simp [splitStep, hl]
      rw [List.foldl_cons, hstep, ih]
      simp [splitChunks, hl, List.takeWhile_cons_of_neg, List.dropWhile_cons_of_neg]
    | false =>
      have hstep : splitStep ⟨i, some (nm, acc), cl⟩ l =
          ⟨i, some (nm, acc ++ [l]), cl⟩ := by
        simp [splitStep, hl]
      rw [List.foldl_cons, hstep, ih]
      simp [hl, List.takeWhile_cons_of_pos, List.dropWhile_cons_of_pos]

theorem closeOut_foldl_closedOnly :
    ∀ (lines : List String) (i : Nat) (cl : List (String × List String)),
    closeOut (lines.foldl splitStep ⟨i, none, cl⟩) =
      cl ++ splitChunks i lines := by
  intro lines
  induction lines with
  | nil => intro i cl; simp [closeOut, splitChunks]
  | cons l ls ih =>
    intro i cl
    cases hl : isMarker l with
    | true =>
      have hstep : splitStep ⟨i, none, cl⟩ l =
          ⟨i + 1, some (chunkName i, [l]), cl⟩ := by
        simp [splitStep, hl]
      rw [List.foldl_cons, hstep, closeOut_foldl_open]
      simp [splitChunks, hl]
    | false =>
      have hstep : splitStep ⟨i, none, cl⟩ l = ⟨i, none, cl⟩ := by
        simp [splitStep, hl]
      rw [List.foldl_cons, hstep, ih]
      simp [splitChunks, hl]

/-- The fold implementing `split_file` computes the direct chunking. -/
theorem split_file_eq_splitChunks (lines : List String) :
    split_file lines = splitChunks 1 lines := by
  rw [split_file, closeOut_foldl_closedOnly]
  simp

theorem dropWhile_dropWhile (p : α → Bool) :
    ∀ l : List α, (l.dropWhile p).dropWhile p = l.dropWhile p := by
  intro l
  induction l with
  | nil => rfl
  | cons a l ih =>
    cases ha : p a with
    | true => rw [List.dropWhile_cons_of_pos ha, ih]
    | false =>
      rw [List.dropWhile_cons_of_neg (by simp [ha]),
        List.dropWhile_cons_of_neg (by simp [ha])]

theorem splitChunks_flatten : ∀ (n : Nat) (ls : List String), ls.length ≤ n →
    ∀ i, ((splitChunks i ls).map Prod.snd).flatten =
      ls.dropWhile (fun x => !(isMarker x)) := by
  intro n
  induction n with
  | zero =>
    intro ls hls i
    rw [List.length_eq_zero.mp (Nat.le_zero.mp hls)]
    simp [splitChunks]
  | succ n ih =>
    intro ls hls i
    cases ls with
    | nil => simp [splitChunks]
    | cons l ls2 =>
      cases hl : isMarker l with
      | true =>
        have hd : (ls2.dropWhile (fun x => !(isMarker x))).length ≤ n := by
          have := (List.dropWhile_sublist (l := ls2)
            (fun x => !(isMarker x))).length_le
          simp only [List.length_cons] at hls
          omega
        rw [splitChunks]
        simp only [hl, if_true, List.map_cons, List.flatten_cons]
        rw [ih _ hd (i + 1), dropWhile_dropWhile,
          List.dropWhile_cons_of_neg (by simp [hl])]
        simp [List.takeWhile_append_dropWhile]
      | false =>
        have hd : ls2.length ≤ n := by
          simp only [List.length_cons] at hls
          omega
        rw [splitChunks]
        simp only [hl, Bool.false_eq_true, if_false]
        rw [ih _ hd i, List.dropWhile_cons_of_pos (by simp [hl])]

theorem splitChunks_names : ∀ (n : Nat) (ls : List String), ls.length ≤ n →
    ∀ i, (splitChunks i ls).map Prod.fst =
      (List.range (splitChunks i ls).length).map (fun k => chunkName (i + k)) := by
  intro n
  induction n with
  | zero =>
    intro ls hls i
    rw [List.length_eq_zero.mp (Nat.le_zero.mp hls)]
    simp [splitChunks]
  | succ n ih =>
    intro ls hls i
    cases ls with
    | nil => simp [splitChunks]
    | cons l ls2 =>
      cases hl : isMarker l with
      | true =>
        have hd : (ls2.dropWhile (fun x => !(isMarker x))).length ≤ n := by
          have := (List.dropWhile_sublist (l := ls2)
            (fun x => !(isMarker x))).length_le
          simp only [List.length_cons] at hls
          omega
        rw [splitChunks]
        simp only [hl, if_true, List.map_cons, List.length_cons]
        rw [ih _ hd (i + 1), List.range_succ_eq_map]
        simp only [List.map_cons, List.map_map, Nat.add_zero]
        congr 1
        apply List.map_congr_left
        intro k _
        have hik : i + 1 + k = i + (k + 1) := by omega
        simp [Function.comp, hik]
      | false =>
        have hd : ls2.length ≤ n := by
          simp only [List.length_cons] at hls
          omega
        rw [splitChunks]
        simp only [hl, Bool.false_eq_true, if_false]
        exact ih _ hd i

theorem splitChunks_shape : ∀ (n : Nat) (ls : List String), ls.length ≤ n →
    ∀ i c, c ∈ splitChunks i ls → ∃ hd tl, c.2 = hd :: tl ∧
      isMarker hd = true ∧ ∀ x ∈ tl, isMarker x = false := by
  intro n
  induction n with
  | zero =>
    intro ls hls i c hc
    rw [List.length_eq_zero.mp (Nat.le_zero.mp hls)] at hc
    simp [splitChunks] at hc
  | succ n ih =>
    intro ls hls i c hc
    cases ls with
    | nil => simp [splitChunks] at hc
    | cons l ls2 =>
      cases hl : isMarker l with
      | true =>
        have hd : (ls2.dropWhile (fun x => !(isMarker x))).length ≤ n := by
          have := (List.dropWhile_sublist (l := ls2)
            (fun x => !(isMarker x))).length_le
          simp only [List.length_cons] at hls
          omega
        rw [splitChunks] at hc
        simp only [hl, if_true, List.mem_cons] at hc
        cases hc with
        | inl hc =>
          refine ⟨l, ls2.takeWhile (fun x => !(isMarker x)), by rw [hc], hl, ?_⟩
          intro x hx
          have := List.mem_takeWhile_imp hx
          simpa using this
        | inr hc => exact ih _ hd (i + 1) c hc
      | false =>
        have hd : ls2.length ≤ n := by
          simp only [List.length_cons] at hls
          omega
        rw [splitChunks] at hc
        simp only [hl, Bool.false_eq_true, if_false] at hc
        exact ih _ hd i c hc

/-- C9: every line before the first `"# "`-marker is written to no output
file; from the first marker on, the written chunks partition the remaining
lines in order; the chunks are named `index1.md`, `index2.md`, … in
creation order, and each chunk consists of one marker line followed by the
non-marker lines up to the next marker (one chunk is open at a time: each
is closed before the next opens). -/
theorem spec_C9 (lines : List String) :
    ((split_file lines).map Prod.snd).flatten =
        lines.dropWhile (fun x => !(isMarker x)) ∧
    (split_file lines).map Prod.fst =
        (List.range (split_file lines).length).map (fun k => chunkName (1 + k)) ∧
    ∀ c ∈ split_file lines, ∃ hd tl, c.2 = hd :: tl ∧ isMarker hd = true ∧
        ∀ x ∈ tl, isMarker x = false := by
  rw [split_file_eq_splitChunks]
  exact ⟨splitChunks_flatten lines.length lines (Nat.le_refl _) 1,
    splitChunks_names lines.length lines (Nat.le_refl _) 1,
    fun c hc => splitChunks_shape lines.length lines (Nat.le_refl _) 1 c hc⟩

/-- Witness for C9 at a concrete input with a discarded prefix and two
chunks. -/
theorem spec_C9_witness :
    ((split_file ["skip", "# A", "x", "# B"]).map Prod.snd).flatten =
        (["skip", "# A", "x", "# B"]).dropWhile (fun x => !(isMarker x)) ∧
    (split_file ["skip", "# A", "x", "# B"]).map Prod.fst =
        (List.range (split_file ["skip", "# A", "x", "# B"]).length).map
          (fun k => chunkName (1 + k)) ∧
    ∀ c ∈ split_file ["skip", "# A", "x", "# B"],
      ∃ hd tl, c.2 = hd :: tl ∧ isMarker hd = true ∧
        ∀ x ∈ tl, isMarker x = false :=
  spec_C9 ["skip", "# A", "x", "# B"]

/- ## Model of `bulk/process-index.py` (`process_files`) -/

/-- Name of the `n`-th input file, `f"index{n}.md"`. -/
def iname (n : Nat) : String := "index" ++ Nat.repr n ++ ".md"

/-- Name of the `n`-th output file, `f"index{n}-n.md"`. -/
def oname (n : Nat) : String := "index" ++ Nat.repr n ++ "-n.md"

/-- The filesystem this script reads: files as (name, lines) entries. -/
abbrev FileSys := List (String × List String)

/-- Embedding of `os.path.exists(filename)`. -/
def fileExists (fs : FileSys) (name : String) : Bool :=
  fs.any fun p => p.1 == name

/-- Lines of the named file (the scripts only read files that exist). -/
def readLines (fs : FileSys) (name : String) : List String :=
  match fs.find? fun p => p.1 == name with
  | some p => p.2
  | none => []

/-- The `for line in f` loop of `process_files`: collect lines until the
first line starting with `"You: "`; that sentinel line and everything
after it are dropped. -/
def collectUntilYou : List String → List String
  | [] => []
  | l :: ls => if l.startsWith "You: " then [] else l :: collectUntilYou ls

/-- The `while True` loop of `process_files` with an explicit fuel bound;
each iteration that finds `index{N}.md` writes `index{N}-n.md` and moves
to `N+1`, and the loop ends at the first missing index. -/
def processLoop (fs : FileSys) : Nat → Nat → List (String × List String)
  | 0, _ => []
  | fuel + 1, index =>
    if fileExists fs (iname index) then
      (oname index, collectUntilYou (readLines fs (iname index))) ::
        processLoop fs fuel (index + 1)
    else []

/-- Embedding of `process_files`: start at index 1.  The fuel
`fs.length + 1` never runs out before the first missing index, because at
most `fs.length` consecutive indices can name existing files
(`consecutive_le_length`). -/
def process_files (fs : FileSys) : List (String × List String) :=
  processLoop fs (fs.length + 1) 1

/- ### Injectivity of decimal file names -/

/-- Decimal digits of `n`, most significant first. -/
def natDigits (n : Nat) : List Char :=
  if n < 10 then [Nat.digitChar n]
  else natDigits (n / 10) ++ [Nat.digitChar (n % 10)]
termination_by n
decreasing_by
  exact Nat.div_lt_self (by omega) (by omega)

theorem natDigits_small {n : Nat} (h : n < 10) :
    natDigits n = [Nat.digitChar n] := by
  rw [natDigits, if_pos h]

theorem natDigits_big {n : Nat} (h : ¬ n < 10) :
    natDigits n = natDigits (n / 10) ++ [Nat.digitChar (n % 10)] := by
  rw [natDigits, if_neg h]

theorem natDigits_ne_nil (n : Nat) : natDigits n ≠ [] := by
  by_cases h : n < 10
  · rw [natDigits_small h]; simp
  · rw [natDigits_big h]; simp

theorem toDigitsCore_eq_natDigits : ∀ (fuel n : Nat) (ds : List Char),
    n < fuel → Nat.toDigitsCore 10 fuel n ds = natDigits n ++ ds := by
  intro fuel
  induction fuel with
  | zero => intro n ds h; omega
  | succ fuel ih =>
    intro n ds h
    by_cases h10 : n / 10 = 0
    · have hn : n < 10 := by omega
      simp only [Nat.toDigitsCore, h10, if_true]
      rw [natDigits_small hn, Nat.mod_eq_of_lt hn]
      rfl
    · have hn : ¬ n < 10 := by omega
      have hlt : n / 10 < fuel := by omega
      simp only [Nat.toDigitsCore, h10, if_false]
      rw [ih (n / 10) (Nat.digitChar (n % 10) :: ds) hlt, natDigits_big hn]
      simp

theorem toDigits_eq_natDigits (n : Nat) : Nat.toDigits 10 n = natDigits n := by
  rw [Nat.toDigits, toDigitsCore_eq_natDigits (n + 1) n [] (Nat.lt_succ_self n)]
  simp

theorem digitChar_inj : ∀ a b : Fin 10,
    Nat.digitChar a.val = Nat.digitChar b.val → a = b := by decide

theorem natDigits_inj : ∀ m n : Nat, natDigits m = natDigits n → m = n := by
  intro m
  induction m using Nat.strong_induction_on with
  | _ m ih =>
    intro n h
    by_cases hm : m < 10 <;> by_cases hn : n < 10
    · rw [natDigits_small hm, natDigits_small hn] at h
      injection h with h _
      exact congrArg Fin.val (digitChar_inj ⟨m, hm⟩ ⟨n, hn⟩ h)
    · rw [natDigits_small hm, natDigits_big hn] at h
      have hlen := congrArg List.length h
      simp only [List.length_append, List.length_singleton] at hlen
      have h0 : (natDigits (n / 10)).length = 0 := by omega
      exact absurd (List.length_eq_zero.mp h0) (natDigits_ne_nil (n / 10))
    · rw [natDigits_big hm, natDigits_small hn] at h
      have hlen := congrArg List.length h
      simp only [List.length_append, List.length_singleton] at hlen
      have h0 : (natDigits (m / 10)).length = 0 := by omega
      exact absurd (List.length_eq_zero.mp h0) (natDigits_ne_nil (m / 10))
    · rw [natDigits_big hm, natDigits_big hn] at h
      obtain ⟨h1, h2⟩ := List.append_inj' h rfl
      injection h2 with h2 _
      have hmod : m % 10 = n % 10 := by
        exact congrArg Fin.val
          (digitChar_inj ⟨m % 10, Nat.mod_lt _ (by omega)⟩
            ⟨n % 10, Nat.mod_lt _ (by omega)⟩ h2)
      have hdiv : m / 10 = n / 10 :=
        ih (m / 10) (Nat.div_lt_self (by omega) (by omega)) (n / 10) h1
      omega

theorem repr_inj (m n : Nat) (h : Nat.repr m = Nat.repr n) : m = n := by
  simp only [Nat.repr] at h
  rw [toDigits_eq_natDigits, toDigits_eq_natDigits] at h
  exact natDigits_inj m n (List.asString_inj.mp h)

theorem iname_inj (m n : Nat) (h : iname m = iname n) : m = n := by
  have hd := congrArg String.data h
  simp only [iname, String.data_append, List.append_assoc] at hd
  have h1 : (Nat.repr m).data ++ ".md".data = (Nat.repr n).data ++ ".md".data :=
    List.append_inj_right hd rfl
  have h2 : (Nat.repr m).data = (Nat.repr n).data :=
    List.append_inj_left' h1 rfl
  exact repr_inj m n (String.ext h2)

/- ### The loop stops at the first missing index -/

theorem consecutive_le_length (fs : FileSys) (k : Nat)
    (hex : ∀ i, 1 ≤ i → i ≤ k → fileExists fs (iname i) = true) :
    k ≤ fs.length := by
  have hnd : ((List.range k).map fun j => iname (j + 1)).Nodup := by
    refine List.Nodup.map ?_ (List.nodup_range k)
    intro a b hab
    have := iname_inj (a + 1) (b + 1) hab
    omega
  have hsub : ((List.range k).map fun j => iname (j + 1)) ⊆ fs.map Prod.fst := by
    intro x hx
    simp only [List.mem_map, List.mem_range] at hx
    obtain ⟨j, hj, rfl⟩ := hx
    have hj2 := hex (j + 1) (by omega) (by omega)
    simp only [fileExists, List.any_eq_true] at hj2
    obtain ⟨p, hp, hpeq⟩ := hj2
    exact List.mem_map.mpr ⟨p, hp, by simpa using hpeq⟩
  have := (List.subperm_of_subset hnd hsub).length_le
  simpa using this

theorem processLoop_eq (fs : FileSys) (k : Nat) : ∀ (fuel start : Nat),
    (∀ i, start ≤ i → i ≤ k → fileExists fs (iname i) = true) →
    fileExists fs (iname (k + 1)) = false →
    start ≤ k + 1 →
    k + 1 - start < fuel →
    processLoop fs fuel start =
      (List.range (k + 1 - start)).map fun j =>
        (oname (start + j), collectUntilYou (readLines fs (iname (start + j)))) := by
  intro fuel
  induction fuel with
  | zero => intro start _ _ _ hfuel; omega
  | succ fuel ihf =>
    intro start hex hmiss hle hfuel
    by_cases hs : start = k + 1
    · subst hs
      rw [processLoop]
      simp [hmiss]
    · have hsk : start ≤ k := by omega
      have hex1 : fileExists fs (iname start) = true :=
        hex start (Nat.le_refl _) hsk
      rw [processLoop]
      simp only [hex1, if_true]
      rw [ihf (start + 1) (fun i h1 h2 => hex i (by omega) h2) hmiss
        (by omega) (by omega)]
      rw [show k + 1 - start = (k - start) + 1 by omega, List.range_succ_eq_map]
      simp only [List.map_cons, List.map_map, Nat.add_zero]
      rw [show k + 1 - (start + 1) = k - start by omega]
      congr 1
      apply List.map_congr_left
      intro j _
      simp only [Function.comp]
      rw [show start + (j + 1) = start + 1 + j by omega]

theorem collectUntilYou_eq_takeWhile : ∀ ls : List String,
    collectUntilYou ls = ls.takeWhile fun l => !(l.startsWith "You: ") := by
  intro ls
  induction ls with
  | nil => rfl
  | cons l ls ih =>
    cases hl : l.startsWith "You: " with
    | true => simp [collectUntilYou, hl]
    | false => simp [collectUntilYou, hl, ih]

/-- C10: `process_files` handles `index1.md`, `index2.md`, … consecutively
and stops at the first missing one; for each processed file it writes
`index{N}-n.md` holding exactly the lines strictly before the first line
starting with `"You: "` (that sentinel line excluded), which is the whole
input when no line starts with `"You: "`. -/
theorem spec_C10 (fs : FileSys) (k : Nat)
    (hex : ∀ i, 1 ≤ i → i ≤ k → fileExists fs (iname i) = true)
    (hmiss : fileExists fs (iname (k + 1)) = false) :
    process_files fs =
      (List.range k).map (fun j =>
        (oname (j + 1), collectUntilYou (readLines fs (iname (j + 1))))) ∧
    (∀ ls : List String, collectUntilYou ls =
      ls.takeWhile fun l => !(l.startsWith "You: ")) ∧
    (∀ ls : List String, (∀ l ∈ ls, l.startsWith "You: " = false) →
      collectUntilYou ls = ls) := by
  refine ⟨?_, collectUntilYou_eq_takeWhile, ?_⟩
  · have hk := consecutive_le_length fs k hex
    rw [process_files,
      processLoop_eq fs k (fs.length + 1) 1 (fun i h1 h2 => hex i h1 h2) hmiss
        (by omega) (by omega)]
    rw [show k + 1 - 1 = k by omega]
    apply List.map_congr_left
    intro j _
    rw [show 1 + j = j + 1 by omega]
  · intro ls h
    rw [collectUntilYou_eq_takeWhile]
    apply List.takeWhile_eq_self_iff.mpr
    intro x hx
    simp [h x hx]

/-- Witness for C10: one input file containing a sentinel line, index 2
missing. -/
theorem spec_C10_witness :
    process_files [("index1.md", ["a", "You: b", "c"])] =
      (List.range 1).map (fun j =>
        (oname (j + 1),
          collectUntilYou
            (readLines [("index1.md", ["a", "You: b", "c"])] (iname (j + 1))))) ∧
    (∀ ls : List String, collectUntilYou ls =
      ls.takeWhile fun l => !(l.startsWith "You: ")) ∧
    (∀ ls : List String, (∀ l ∈ ls, l.startsWith "You: " = false) →
      collectUntilYou ls = ls) :=
  spec_C10 [("index1.md", ["a", "You: b", "c"])] 1
    (by
      intro i h1 h2
      have hi : i = 1 := by omega
      subst hi
      decide)
    (by decide)
